import Mathlib

/-!
Verification of the todoist-meeting-mcp core pipeline: action-item
extraction, priority classification, due-date resolution and task routing,
shallowly embedded from the TypeScript sources
(src/utils/extractor.ts, src/utils/dateParser.ts, src/utils/router.ts).

Strings are modelled as Lean strings; the JavaScript string operations
used by the code (trim, toLowerCase, split, includes, slice, regex tests)
are embedded as executable functions on lists of characters.
-/

set_option maxRecDepth 10000

abbrev Chars := List Char

/-- Whitespace characters recognised by the JavaScript regex class \s
(for the character repertoire the program manipulates). -/
def isWsChar (c : Char) : Bool :=
  c = ' ' || c = '\t' || c = '\n' || c = '\r' || c = '\x0b' || c = '\x0c'

/-- Drop trailing characters satisfying the JS whitespace class. -/
def dropTrailWs (l : Chars) : Chars :=
  (l.reverse.dropWhile isWsChar).reverse

/-- JavaScript String.prototype.trim on a character list. -/
def jsTrimL (l : Chars) : Chars :=
  dropTrailWs (l.dropWhile isWsChar)

/-- JavaScript String.prototype.trim. -/
def jsTrim (s : String) : String :=
  ⟨jsTrimL s.data⟩

/-- JavaScript String.prototype.toLowerCase on a character list
(ASCII case mapping, which is all the embedded patterns use). -/
def lowerL (l : Chars) : Chars :=
  l.map Char.toLower

/-- List starts with the given pattern. -/
def startsWithL : Chars → Chars → Bool
  | _, [] => true
  | [], _ :: _ => false
  | c :: cs, p :: ps => c = p && startsWithL cs ps

/-- JavaScript String.prototype.includes: needle occurs contiguously in hay. -/
def containsL (hay needle : Chars) : Bool :=
  startsWithL hay needle ||
    match hay with
    | [] => false
    | _ :: t => containsL t needle

/-- Split on the JavaScript line separator regex, matching a newline
optionally preceded by a carriage return. -/
def splitLinesAux (l : Chars) (cur : Chars) : List Chars :=
  match l with
  | [] => [cur.reverse]
  | '\r' :: '\n' :: rest => cur.reverse :: splitLinesAux rest []
  | c :: rest =>
    if c = '\n' then cur.reverse :: splitLinesAux rest []
    else splitLinesAux rest (c :: cur)

def splitLines (l : Chars) : List Chars := splitLinesAux l []

/-- Split into maximal whitespace-free runs, as JS split on a whitespace
regex followed by removal of empty tokens (the program filters tokens by
length afterwards, so empty artifacts never survive). -/
def splitWsAux (l : Chars) (cur : Chars) : List Chars :=
  match l with
  | [] => if cur = [] then [] else [cur.reverse]
  | c :: rest =>
    if isWsChar c then
      if cur = [] then splitWsAux rest [] else cur.reverse :: splitWsAux rest []
    else splitWsAux rest (c :: cur)

def splitWs (l : Chars) : List Chars := splitWsAux l []

/-- JavaScript word character class used by the word-boundary assertion. -/
def isWordChar (c : Char) : Bool :=
  c.isAlpha || c.isDigit || c = '_'

/-- One alternative of a word-bounded alternation matches at some position
of the (already lowercased) text: the alternative occurs as a contiguous
run with no word character immediately before or after it. -/
def boundedAtAux (prev : Option Char) (s : Chars) (alt : Chars) : Bool :=
  (startsWithL s alt
    && (match prev with | none => true | some p => !isWordChar p)
    && (match (s.drop alt.length).head? with
        | none => true
        | some c => !isWordChar c))
  || (match s with
      | [] => false
      | c :: rest => boundedAtAux (some c) rest alt)

/-- JavaScript regex test for a case-insensitive word-bounded alternation
such as the URGENT and IMPORTANT patterns. -/
def testBounded (alts : List Chars) (line : Chars) : Bool :=
  alts.any (fun a => boundedAtAux none (lowerL line) a)

/-- Alternatives of the URGENT_PATTERN regex. -/
def urgentAlts : List Chars :=
  ["urgent", "asap", "as soon as possible", "blocker", "critical",
   "priority 1", "p1"].map String.data

/-- Alternatives of the IMPORTANT_PATTERN regex. -/
def importantAlts : List Chars :=
  ["important", "soon", "priority 2", "p2"].map String.data

/-- inferPriority from src/utils/extractor.ts. -/
def inferPriority (line : Chars) : Nat :=
  if testBounded urgentAlts line then 1
  else if testBounded importantAlts line then 2
  else 4

/-- A JavaScript Date value, reduced to the observable parts the program
reads: calendar fields plus a time-of-day component. -/
structure JsDate where
  year : Nat
  month : Nat
  day : Nat
  hour : Nat
  minute : Nat
deriving DecidableEq

/-- JavaScript String(n).padStart(2, "0") for a numeric field. -/
def pad2 (n : Nat) : String :=
  if n < 10 then "0" ++ toString n else toString n

/-- toDateString from src/utils/dateParser.ts: format a Date as YYYY-MM-DD
(getMonth is zero-based, hence the +1). -/
def toDateString (d : JsDate) : String :=
  toString d.year ++ "-" ++ pad2 (d.month + 1) ++ "-" ++ pad2 d.day

/-- Test of the end-of-day regex in parseDueDate: the lowercased text
contains eod, end of day, or e.o.d as a contiguous run. -/
def eodTest (l : Chars) : Bool :=
  let low := lowerL l
  containsL low "eod".data || containsL low "end of day".data ||
    containsL low "e.o.d".data

/-- parseDueDate from src/utils/dateParser.ts. The external chrono-node
capability is a parameter mapping the trimmed text and the reference
instant to the first parsed date, or none; the reference instant stands
for the Date constructed at call time. -/
def parseDueDate (chronoParse : String → JsDate → Option JsDate)
    (ref : JsDate) (text : String) : Option String :=
  if text = "" then none
  else
    if jsTrim text = "" then none
    else
      match chronoParse (jsTrim text) ref with
      | some d => some (toDateString d)
      | none =>
        if eodTest (jsTrim text).data then some (toDateString ref) else none

/-- ExtractedActionItem from src/todoist/types.ts. -/
structure ExtractedActionItem where
  content : String
  description : String
  dueDate : Option String
  priority : Nat
  subtasks : List String
deriving DecidableEq

/-- Character opening a bullet marker. -/
def isBulletChar (c : Char) : Bool :=
  c = '-' || c = '*' || c = '•'

/-- Replacement of a leading bullet marker followed by optional whitespace,
as the regex replace on the opening line. -/
def stripBulletMark (l : Chars) : Chars :=
  match l with
  | c :: rest => if isBulletChar c then rest.dropWhile isWsChar else l
  | [] => l

/-- Replacement of a leading run of digits followed by a dot or closing
parenthesis and optional whitespace. -/
def stripNumMark (l : Chars) : Chars :=
  let ds := l.takeWhile Char.isDigit
  if ds.isEmpty then l
  else
    match l.drop ds.length with
    | c :: rest =>
      if c = '.' || c = ')' then rest.dropWhile isWsChar else l
    | [] => l

/-- Test of a bullet marker followed by at least one whitespace character. -/
def bulletTest (l : Chars) : Bool :=
  match l with
  | c :: d :: _ => isBulletChar c && isWsChar d
  | _ => false

/-- Test of a numbered-list marker followed by at least one whitespace
character. -/
def numTest (l : Chars) : Bool :=
  let ds := l.takeWhile Char.isDigit
  !ds.isEmpty &&
    match l.drop ds.length with
    | c :: d :: _ => (c = '.' || c = ')') && isWsChar d
    | _ => false

/-- Test of a checkbox marker followed by at least one whitespace character
(the bracket holds a whitespace character or an x, case-insensitively). -/
def bracketTest (l : Chars) : Bool :=
  match l with
  | '[' :: c :: ']' :: d :: _ => (isWsChar c || c.toLower = 'x') && isWsChar d
  | _ => false

/-- Replacement of a leading checkbox marker followed by optional
whitespace. -/
def stripBracketMark (l : Chars) : Chars :=
  match l with
  | '[' :: c :: ']' :: rest =>
    if isWsChar c || c.toLower = 'x' then rest.dropWhile isWsChar else l
  | _ => l

/-- Explicit label alternatives of the action regex, each to be followed by
a colon. -/
def actionLabels : List Chars :=
  ["action", "todo", "follow-up", "follow up", "next step",
   "deliverable"].map String.data

/-- Case-insensitive match of a leading label and colon; on success the
remainder after the colon and any following whitespace (mirroring the
greedy whitespace in the regex and the slice by the match length). -/
def labelRest (l : Chars) : List Chars → Option Chars
  | [] => none
  | lab :: labs =>
    if lowerL (l.take lab.length) = lab ∧ (l.drop lab.length).head? = some ':'
    then some ((l.drop (lab.length + 1)).dropWhile isWsChar)
    else labelRest l labs

/-- The opening-line test of extractActionItems: a line qualifies when an
explicit label matched, a bullet or numbered marker with whitespace is
present, a checkbox marker is present, or the bare-bullet fallback (line
starts with a bullet character and has length greater than 3) applies. -/
def isActionLine (line : Chars) : Bool :=
  let restOfLine := stripNumMark (stripBulletMark line)
  (labelRest restOfLine actionLabels).isSome ||
    bulletTest line || numTest line || bracketTest line ||
    ((match line with | c :: _ => isBulletChar c | [] => false) &&
      decide (line.length > 3))

/-- The stripped content of an opening line: marker and numbered prefixes
removed, an explicit label removed if one matched, a checkbox marker
removed, and the result trimmed. -/
def lineContent (line : Chars) : Chars :=
  let restOfLine := stripNumMark (stripBulletMark line)
  let afterLabel :=
    match labelRest restOfLine actionLabels with
    | some r => jsTrimL r
    | none => restOfLine
  jsTrimL (stripBracketMark afterLabel)

/-- An action item being assembled while the scanner collects continuation
lines, before the final truncations. -/
structure Pending where
  content : Chars
  description : Chars
  dueDate : Option String
  priority : Nat
  subtasks : List String

/-- Emission of an assembled item with the final truncations of
extractActionItems. -/
def flushPending (p : Pending) : ExtractedActionItem :=
  { content := ⟨p.content.take 500⟩
    description := ⟨p.description.take 2000⟩
    dueDate := p.dueDate
    priority := p.priority
    subtasks := p.subtasks.take 20 }

/-- Processing of a line in scanning state: if the line qualifies and its
stripped content has at least 2 characters, an assembly starts whose
description is the opening line, whose due date tries the content and then
the full line, and whose priority classifies the full line. -/
def scanLine (pdd : String → Option String) (line : Chars) : Option Pending :=
  if isActionLine line then
    if (lineContent line).length < 2 then none
    else
      some { content := lineContent line
             description := line
             dueDate := (pdd ⟨lineContent line⟩).orElse (fun _ => pdd ⟨line⟩)
             priority := inferPriority line
             subtasks := [] }
  else none

/-- Heading-or-bold test of the continuation loop: the line starts with a
hash, or two consecutive asterisks occur anywhere in it. -/
def headingOrBold (l : Chars) : Bool :=
  (match l with | c :: _ => c = '#' | [] => false) || containsL l ['*', '*']

/-- One step of the line scan, mirroring one iteration of the outer while
loop of extractActionItems: with an assembly open, the continuation
conditions are tested (both stopping branches of the source break without
consuming the line, which is then rescanned as a fresh opening line);
without one the line is scanned. -/
def extractStep (pdd : String → Option String)
    (st : List ExtractedActionItem × Option Pending) (line : Chars) :
    List ExtractedActionItem × Option Pending :=
  match st.2 with
  | some p =>
    let nextTrim := line.dropWhile isWsChar
    let nextBullet := bulletTest nextTrim || numTest nextTrim
    let nextIndent := decide (line.length - nextTrim.length > 0)
    if nextBullet && nextIndent then
      (st.1, some { p with
        description := p.description ++ '\n' :: line
        subtasks := p.subtasks ++
          [⟨jsTrimL (stripNumMark (stripBulletMark nextTrim))⟩] })
    else if nextIndent && decide (nextTrim.length > 0) && !headingOrBold nextTrim then
      (st.1, some { p with
        description := p.description ++ '\n' :: line
        subtasks := p.subtasks ++ [⟨nextTrim⟩] })
    else
      (st.1 ++ [flushPending p], scanLine pdd line)
  | none => (st.1, scanLine pdd line)

/-- The trimmed non-blank lines the extractor scans. -/
def linesOf (text : String) : List Chars :=
  ((splitLines text.data).map jsTrimL).filter (fun l => !l.isEmpty)

/-- extractActionItems from src/utils/extractor.ts, with the external date
parser and the call-time reference instant as parameters. -/
def extractActionItems (chronoParse : String → JsDate → Option JsDate)
    (ref : JsDate) (text : String) : List ExtractedActionItem :=
  if text = "" then []
  else
    match (linesOf text).foldl
        (extractStep (parseDueDate chronoParse ref)) ([], none) with
    | (items, some p) => items ++ [flushPending p]
    | (items, none) => items

/-- TodoistSection from src/todoist/types.ts, as the router reads it. -/
structure TodoistSection where
  id : String
  name : String
deriving DecidableEq

/-- A project together with its sections, as the router receives it. -/
structure ProjectWithSections where
  id : String
  name : String
  sections : List TodoistSection
deriving DecidableEq

/-- RouteResult from src/todoist/types.ts. -/
structure RouteResult where
  projectId : String
  sectionId : Option String
deriving DecidableEq

/-- matchSection from src/utils/router.ts: first section whose lowercased
name occurs in the normalized content, or whose name contains some token of
length at least 2. -/
def matchSection (normalizedContent : Chars) (words : List Chars) :
    List TodoistSection → Option String
  | [] => none
  | s :: rest =>
    if containsL normalizedContent (lowerL s.name.data) then some s.id
    else if words.any (fun w =>
        decide (w.length ≥ 2) && containsL (lowerL s.name.data) w)
    then some s.id
    else matchSection normalizedContent words rest

/-- The normalized content the router works on: lowercased then trimmed. -/
def normContent (taskContent : String) : Chars :=
  jsTrimL (lowerL taskContent.data)

/-- The token list of the router: whitespace-separated runs of the
normalized content, keeping those longer than one character. -/
def contentWords (nc : Chars) : List Chars :=
  (splitWs nc).filter (fun w => decide (w.length > 1))

/-- The bidirectional substring test of the hint stage. -/
def hintPred (hintNorm : Chars) (p : ProjectWithSections) : Bool :=
  containsL (lowerL p.name.data) hintNorm ||
    containsL hintNorm (lowerL p.name.data)

/-- Stage 1 of routeTask: with a non-blank hint, the first project whose
name contains the normalized hint or is contained in it, returned with the
section resolved from the content. -/
def hintStage (nc : Chars) (words : List Chars)
    (projects : List ProjectWithSections) :
    Option String → Option RouteResult
  | none => none
  | some h =>
    if jsTrimL h.data = [] then none
    else
      match projects.find? (hintPred (lowerL (jsTrimL h.data))) with
      | some p => some ⟨p.id, matchSection nc words p.sections⟩
      | none => none

/-- A routing candidate with its score, as tracked across stages 2 and 3. -/
structure BestCandidate where
  projectId : String
  sectionId : Option String
  score : Nat
deriving DecidableEq

/-- Per-token score of stage 2 against one project name (embedding the
redundant disjunction of the source verbatim). -/
def keywordScore (words : List Chars) (nameNorm : Chars) : Nat :=
  words.countP (fun w =>
    containsL nameNorm w || (decide (w.length ≥ 3) && containsL nameNorm w))

/-- One iteration of the stage-2 loop: replace the candidate when the
keyword score plus a bonus of 2 for a resolved section strictly exceeds the
current score. -/
def keywordStep (nc : Chars) (words : List Chars) (best : BestCandidate)
    (p : ProjectWithSections) : BestCandidate :=
  if keywordScore words (lowerL p.name.data) +
      (if (matchSection nc words p.sections).isSome then 2 else 0) >
      best.score
  then ⟨p.id, matchSection nc words p.sections,
        keywordScore words (lowerL p.name.data) +
          (if (matchSection nc words p.sections).isSome then 2 else 0)⟩
  else best

/-- Stage 2 of routeTask: fold of the keyword scoring over the projects,
starting from the empty candidate. -/
def keywordBest (nc : Chars) (words : List Chars)
    (projects : List ProjectWithSections) : BestCandidate :=
  projects.foldl (keywordStep nc words) ⟨"", none, 0⟩

/-- The fixed keyword-to-project-substring table of stage 3. -/
def patternRules : List (List String × String) :=
  [(["review", "pr", "merge", "code", "dev", "engineering", "sprint"], "eng"),
   (["review", "pr", "merge", "code", "dev"], "dev"),
   (["invoice", "payment", "budget", "finance", "expense"], "finan"),
   (["follow up", "follow-up", "contact", "crm", "client", "customer"], "crm"),
   (["follow up", "follow-up", "contact", "client"], "work")]

/-- The body of one stage-3 iteration once a rule's keywords hit: a found
target project replaces the candidate when 2 plus the section bonus is
strictly higher than the current score. -/
def patternApply (nc : Chars) (words : List Chars) (best : BestCandidate) :
    Option ProjectWithSections → BestCandidate
  | some p =>
    if 2 + (if (matchSection nc words p.sections).isSome then 1 else 0) >
        best.score
    then ⟨p.id, matchSection nc words p.sections,
          2 + (if (matchSection nc words p.sections).isSome then 1 else 0)⟩
    else best
  | none => best

def patternStep (nc : Chars) (words : List Chars)
    (projects : List ProjectWithSections) (best : BestCandidate)
    (rule : List String × String) : BestCandidate :=
  if rule.1.any (fun k => containsL nc k.data) then
    patternApply nc words best
      (projects.find? (fun p => containsL (lowerL p.name.data) rule.2.data))
  else best

/-- Stage 3 of routeTask: fold of the domain-pattern rules over the
candidate produced by stage 2. -/
def patternBest (nc : Chars) (words : List Chars)
    (projects : List ProjectWithSections) (best : BestCandidate) :
    BestCandidate :=
  patternRules.foldl (patternStep nc words projects) best

/-- The inbox test of the final fallback. -/
def inboxPred (p : ProjectWithSections) : Bool :=
  lowerL p.name.data = "inbox".data ||
    containsL (lowerL p.name.data) "inbox".data

/-- The final fallback of routeTask: the first inbox-named project, else
the first project, else the empty result. -/
def inboxFallback (projects : List ProjectWithSections) : RouteResult :=
  match projects.find? inboxPred with
  | some p => ⟨p.id, none⟩
  | none =>
    match projects with
    | [] => ⟨"", none⟩
    | p :: _ => ⟨p.id, none⟩

/-- Stages 2 onward of routeTask: the scored candidate wins when its
project identifier is non-empty, else the fallback applies. -/
def afterHint (nc : Chars) (words : List Chars)
    (projects : List ProjectWithSections) : RouteResult :=
  if (patternBest nc words projects (keywordBest nc words projects)).projectId
      ≠ ""
  then ⟨(patternBest nc words projects
          (keywordBest nc words projects)).projectId,
        (patternBest nc words projects
          (keywordBest nc words projects)).sectionId⟩
  else inboxFallback projects

/-- routeTask from src/utils/router.ts. -/
def routeTask (taskContent : String) (projects : List ProjectWithSections)
    (hint : Option String) : RouteResult :=
  match hintStage (normContent taskContent)
      (contentWords (normContent taskContent)) projects hint with
  | some r => r
  | none =>
    afterHint (normContent taskContent)
      (contentWords (normContent taskContent)) projects

/-! Helper lemmas about the trimming functions. -/

theorem dropWhile_head_false {p : Char → Bool} {l : Chars} {c : Char}
    {t : Chars} (h : l.dropWhile p = c :: t) : p c = false := by
  have h2 := List.head_dropWhile_not p l (by simp [h])
  simpa [h] using h2

theorem jsTrimL_cons_ne_nil {c : Char} (hc : isWsChar c = false)
    (l : Chars) : jsTrimL (c :: l) ≠ [] := by
  unfold jsTrimL dropTrailWs
  rw [List.dropWhile_cons, hc]
  simp only [Bool.false_eq_true, if_false]
  intro h
  rw [List.reverse_eq_nil_iff, List.dropWhile_eq_nil_iff] at h
  have := h c (by simp)
  rw [hc] at this
  exact Bool.false_ne_true this

theorem jsTrimL_head {z : Chars} {c : Char} {t : Chars}
    (h : jsTrimL z = c :: t) : isWsChar c = false := by
  unfold jsTrimL dropTrailWs at h
  have h1 : (z.dropWhile isWsChar).reverse.dropWhile isWsChar =
      t.reverse ++ [c] := by
    have h2 := congrArg List.reverse h
    simpa using h2
  obtain ⟨pre, hpre⟩ :
      (z.dropWhile isWsChar).reverse.dropWhile isWsChar <:+
        (z.dropWhile isWsChar).reverse :=
    List.dropWhile_suffix isWsChar
  rw [h1] at hpre
  have hd2 : z.dropWhile isWsChar = c :: (t ++ pre.reverse) := by
    have h3 := congrArg List.reverse hpre
    simpa using h3.symm
  exact dropWhile_head_false hd2

/-! Invariants of the extractor state. -/

/-- The invariant of an emitted item. -/
def GoodItem (it : ExtractedActionItem) : Prop :=
  2 ≤ it.content.length ∧ it.content.length ≤ 500 ∧ jsTrim it.content ≠ "" ∧
    it.description.length ≤ 2000 ∧ it.subtasks.length ≤ 20

/-- The invariant of an open assembly: its content is at least 2 characters
and starts with a non-whitespace character. -/
def GoodPending (p : Pending) : Prop :=
  2 ≤ p.content.length ∧ ∃ c t, p.content = c :: t ∧ isWsChar c = false

theorem lineContent_eq_trim (line : Chars) :
    ∃ z, lineContent line = jsTrimL z :=
  ⟨_, rfl⟩

theorem scanLine_good {pdd : String → Option String} {line : Chars}
    {p : Pending} (h : scanLine pdd line = some p) : GoodPending p := by
  unfold scanLine at h
  by_cases ha : isActionLine line = true
  · rw [if_pos ha] at h
    by_cases hl : (lineContent line).length < 2
    · rw [if_pos hl] at h
      exact absurd h (by simp)
    · rw [if_neg hl] at h
      injection h with h'
      have hp : p.content = lineContent line := by rw [← h']
      constructor
      · rw [hp]; omega
      · obtain ⟨z, hz⟩ := lineContent_eq_trim line
        rcases hcc : lineContent line with _ | ⟨c, t⟩
        · rw [hcc] at hl
          simp at hl
        · exact ⟨c, t, by rw [hp, hcc],
            jsTrimL_head (z := z) (by rw [← hz, hcc])⟩
  · rw [if_neg ha] at h
    exact absurd h (by simp)

theorem strLength_eq (s : String) : s.length = s.data.length := rfl

theorem flushPending_good {p : Pending} (hp : GoodPending p) :
    GoodItem (flushPending p) := by
  obtain ⟨hlen, c, t, hct, hc⟩ := hp
  have hdata : (flushPending p).content.data = c :: t.take 499 := by
    show p.content.take 500 = c :: t.take 499
    rw [hct]
    exact List.take_succ_cons
  have htlen : 1 ≤ t.length := by
    rw [hct] at hlen
    simp only [List.length_cons] at hlen
    omega
  refine ⟨?_, ?_, ?_, ?_, ?_⟩
  · rw [strLength_eq, hdata]
    simp only [List.length_cons, List.length_take]
    omega
  · rw [strLength_eq]
    show (p.content.take 500).length ≤ 500
    rw [List.length_take]
    omega
  · intro hemp
    have h2 : jsTrimL (flushPending p).content.data = [] :=
      congrArg String.data hemp
    rw [hdata] at h2
    exact jsTrimL_cons_ne_nil hc (t.take 499) h2
  · rw [strLength_eq]
    show (p.description.take 2000).length ≤ 2000
    rw [List.length_take]
    omega
  · show (p.subtasks.take 20).length ≤ 20
    rw [List.length_take]
    omega

theorem extractStep_cases (pdd : String → Option String)
    (items : List ExtractedActionItem) (q : Pending) (line : Chars) :
    (∃ d s, extractStep pdd (items, some q) line =
      (items, some ⟨q.content, d, q.dueDate, q.priority, s⟩)) ∨
    extractStep pdd (items, some q) line =
      (items ++ [flushPending q], scanLine pdd line) := by
  simp only [extractStep]
  split
  · exact Or.inl ⟨_, _, rfl⟩
  · split
    · exact Or.inl ⟨_, _, rfl⟩
    · exact Or.inr rfl

theorem extractStep_inv (pdd : String → Option String)
    (st : List ExtractedActionItem × Option Pending) (line : Chars)
    (h1 : ∀ it ∈ st.1, GoodItem it)
    (h2 : ∀ p, st.2 = some p → GoodPending p) :
    (∀ it ∈ (extractStep pdd st line).1, GoodItem it) ∧
      (∀ p, (extractStep pdd st line).2 = some p → GoodPending p) := by
  obtain ⟨items, pend⟩ := st
  cases pend with
  | none =>
    refine ⟨fun it hit => h1 it hit, ?_⟩
    intro p hp
    exact scanLine_good hp
  | some q =>
    have hq := h2 q rfl
    rcases extractStep_cases pdd items q line with ⟨d, s, he⟩ | he <;> rw [he]
    · refine ⟨fun it hit => h1 it hit, ?_⟩
      intro p hp
      simp only [Option.some.injEq] at hp
      rw [← hp]
      exact ⟨hq.1, hq.2⟩
    · refine ⟨?_, ?_⟩
      · intro it hit
        rcases List.mem_append.mp hit with hmem | hmem
        · exact h1 it hmem
        · rw [List.mem_singleton.mp hmem]
          exact flushPending_good hq
      · intro p hp
        exact scanLine_good hp

theorem extractFold_inv (pdd : String → Option String) (lines : List Chars) :
    ∀ st : List ExtractedActionItem × Option Pending,
      (∀ it ∈ st.1, GoodItem it) →
      (∀ p, st.2 = some p → GoodPending p) →
      (∀ it ∈ (lines.foldl (extractStep pdd) st).1, GoodItem it) ∧
        (∀ p, (lines.foldl (extractStep pdd) st).2 = some p →
          GoodPending p) := by
  induction lines with
  | nil => intro st h1 h2; exact ⟨h1, h2⟩
  | cons line rest ih =>
    intro st h1 h2
    rw [List.foldl_cons]
    obtain ⟨g1, g2⟩ := extractStep_inv pdd st line h1 h2
    exact ih (extractStep pdd st line) g1 g2

/-- C2: every item emitted by extractActionItems has content that is
non-empty after trimming, of length at least 2 and at most 500; its
description has length at most 2000; and its subtasks list has at most 20
entries. In particular no item with stripped content shorter than 2
characters is ever emitted. -/
theorem extract_item_invariants
    (chronoParse : String → JsDate → Option JsDate) (ref : JsDate)
    (text : String) (it : ExtractedActionItem)
    (h : it ∈ extractActionItems chronoParse ref text) :
    jsTrim it.content ≠ "" ∧ 2 ≤ it.content.length ∧
      it.content.length ≤ 500 ∧ it.description.length ≤ 2000 ∧
      it.subtasks.length ≤ 20 := by
  have hg : GoodItem it := by
    unfold extractActionItems at h
    by_cases ht : text = ""
    · rw [if_pos ht] at h
      exact absurd h (by simp)
    · rw [if_neg ht] at h
      obtain ⟨g1, g2⟩ := extractFold_inv (parseDueDate chronoParse ref)
        (linesOf text) ([], none) (by simp) (by simp)
      rcases hfin : (linesOf text).foldl
          (extractStep (parseDueDate chronoParse ref)) ([], none) with
        ⟨items, _ | q⟩
      · rw [hfin] at h g1
        exact g1 it h
      · rw [hfin] at h g1 g2
        have hm : it ∈ items ++ [flushPending q] := h
        rcases List.mem_append.mp hm with hmem | hmem
        · exact g1 it hmem
        · rw [List.mem_singleton.mp hmem]
          exact flushPending_good (g2 q rfl)
  exact ⟨hg.2.2.1, hg.1, hg.2.1, hg.2.2.2.1, hg.2.2.2.2⟩

/-! Concrete fixtures used by witnesses and counterexamples. -/

/-- An external date parser that finds no match anywhere. -/
def oracleNone : String → JsDate → Option JsDate := fun _ _ => none

/-- Reference instant 2024-06-03 09:30 (month is zero-based). -/
def refJune3 : JsDate := ⟨2024, 5, 3, 9, 30⟩

/-- Reference instant 2024-06-04 09:30 (month is zero-based). -/
def refJune4 : JsDate := ⟨2024, 5, 4, 9, 30⟩

/-- A concrete extracted item of the input consisting of one bullet line. -/
def itemFixIt : ExtractedActionItem := ⟨"fix it", "- fix it", none, 4, []⟩

/-- Witness for C2 at a concrete input. -/
theorem extract_item_invariants_witness :
    jsTrim itemFixIt.content ≠ "" ∧ 2 ≤ itemFixIt.content.length ∧
      itemFixIt.content.length ≤ 500 ∧ itemFixIt.description.length ≤ 2000 ∧
      itemFixIt.subtasks.length ≤ 20 :=
  extract_item_invariants oracleNone refJune3 "- fix it" itemFixIt (by decide)

/-- C1 evaluation at the failing input: the three lines come back as three
separate items and the subtasks of every one of them are empty, because the
continuation-collection conditions require leading whitespace that the
initial per-line trim has already removed. -/
theorem extract_subtasks_lost :
    extractActionItems oracleNone refJune3
        "1. Review PR #42\n   - check tests\n   - check docs" =
      [⟨"Review PR #42", "1. Review PR #42", none, 4, []⟩,
       ⟨"check tests", "- check tests", none, 4, []⟩,
       ⟨"check docs", "- check docs", none, 4, []⟩] := by
  decide

theorem scanLine_none (pdd : String → Option String) (line : Chars)
    (h : isActionLine line = false) : scanLine pdd line = none := by
  unfold scanLine
  rw [h]
  simp

theorem extractFold_no_action (pdd : String → Option String)
    (lines : List Chars) (h : ∀ l ∈ lines, isActionLine l = false) :
    ∀ items, lines.foldl (extractStep pdd) (items, none) = (items, none) := by
  induction lines with
  | nil => intro items; rfl
  | cons line rest ih =>
    intro items
    rw [List.foldl_cons]
    have h1 : extractStep pdd (items, none) line = (items, none) := by
      show (items, scanLine pdd line) = (items, none)
      rw [scanLine_none pdd line (h line (by simp))]
    rw [h1]
    exact ih (fun l hl => h l (by simp [hl])) items

/-- C8: extractActionItems returns the empty sequence on the empty input
and on any input none of whose trimmed non-blank lines qualifies as an
action line; being a total function of its embedding it raises nothing. -/
theorem extract_empty_or_no_markers
    (chronoParse : String → JsDate → Option JsDate) (ref : JsDate) :
    extractActionItems chronoParse ref "" = [] ∧
      ∀ text, (∀ l ∈ linesOf text, isActionLine l = false) →
        extractActionItems chronoParse ref text = [] := by
  refine ⟨rfl, ?_⟩
  intro text hna
  unfold extractActionItems
  by_cases ht : text = ""
  · rw [if_pos ht]
  · rw [if_neg ht, extractFold_no_action _ _ hna []]

/-- Witness for C8 at a concrete marker-free input. -/
theorem extract_no_markers_witness :
    extractActionItems oracleNone refJune3 "hello world\nnothing here" = [] :=
  (extract_empty_or_no_markers oracleNone refJune3).2
    "hello world\nnothing here" (by decide)

/-- C3: the priority classifier returns 1 on lines matched by the urgency
pattern, 2 on lines matched only by the elevated pattern, and 4 otherwise;
it never returns 3 nor any value outside 1, 2, 4, and the urgency pattern
takes precedence when both match. -/
theorem inferPriority_spec (line : Chars) :
    (testBounded urgentAlts line = true → inferPriority line = 1) ∧
      (testBounded urgentAlts line = false →
        testBounded importantAlts line = true → inferPriority line = 2) ∧
      (testBounded urgentAlts line = false →
        testBounded importantAlts line = false → inferPriority line = 4) ∧
      (testBounded urgentAlts line = true →
        testBounded importantAlts line = true → inferPriority line = 1) ∧
      inferPriority line ≠ 3 ∧
      (inferPriority line = 1 ∨ inferPriority line = 2 ∨
        inferPriority line = 4) := by
  unfold inferPriority
  by_cases h1 : testBounded urgentAlts line = true
  · simp [h1]
  · by_cases h2 : testBounded importantAlts line = true
    · simp [h1, h2]
    · simp [h1, h2]

/-- Witness for C3 at concrete lines of each priority class. -/
theorem inferPriority_witness :
    inferPriority ("do it asap".data) = 1 ∧
      inferPriority ("important task".data) = 2 ∧
      inferPriority ("regular chore".data) = 4 :=
  ⟨(inferPriority_spec _).1 (by decide),
   (inferPriority_spec _).2.1 (by decide) (by decide),
   (inferPriority_spec _).2.2.1 (by decide) (by decide)⟩

/-- The end-of-day marker set exactly as the claim words it, with a
trailing period on the abbreviated form; to be compared with the source
test eodTest, whose regex needs no trailing period. -/
def eodMarkerClaim (l : Chars) : Bool :=
  containsL (lowerL l) "eod".data || containsL (lowerL l) "end of day".data ||
    containsL (lowerL l) "e.o.d.".data

/-- C4 counterexample: the text "wrap by e.o.d" contains none of the
claim's listed markers, the external parser finds no match, and yet the
resolver returns the reference date instead of absent, because the source
regex does not require the trailing period of the abbreviation. -/
theorem parseDueDate_eod_cex :
    eodMarkerClaim (jsTrim "wrap by e.o.d").data = false ∧
      oracleNone (jsTrim "wrap by e.o.d") refJune3 = none ∧
      parseDueDate oracleNone refJune3 "wrap by e.o.d" = some "2024-06-03" := by
  refine ⟨by decide, rfl, by decide⟩

/-- C4 (amended): when the external capability finds no match on the
trimmed text, the resolver returns the calendar date of the reference
instant exactly when the source end-of-day test fires (markers eod, end of
day, e.o.d, the trailing period of the abbreviation not being required),
and absent otherwise; every returned value is the year-month-day rendering
of some date, and that rendering discards any time-of-day component. -/
theorem parseDueDate_no_match_spec
    (chronoParse : String → JsDate → Option JsDate) (ref : JsDate)
    (text : String) :
    (chronoParse (jsTrim text) ref = none →
      parseDueDate chronoParse ref text =
        if eodTest (jsTrim text).data then some (toDateString ref)
        else none) ∧
      (∀ s, parseDueDate chronoParse ref text = some s →
        ∃ d : JsDate, s = toDateString d) ∧
      (∀ d₁ d₂ : JsDate, d₁.year = d₂.year → d₁.month = d₂.month →
        d₁.day = d₂.day → toDateString d₁ = toDateString d₂) := by
  refine ⟨?_, ?_, ?_⟩
  · intro h
    unfold parseDueDate
    by_cases ht : text = ""
    · subst ht
      rw [if_pos rfl, show eodTest (jsTrim "").data = false from rfl]
      simp
    · rw [if_neg ht]
      by_cases ht2 : jsTrim text = ""
      · rw [if_pos ht2, ht2, show eodTest ("" : String).data = false from rfl]
        simp
      · rw [if_neg ht2, h]
  · intro s hs
    unfold parseDueDate at hs
    by_cases ht : text = ""
    · rw [if_pos ht] at hs
      exact absurd hs (by simp)
    · rw [if_neg ht] at hs
      by_cases ht2 : jsTrim text = ""
      · rw [if_pos ht2] at hs
        exact absurd hs (by simp)
      · rw [if_neg ht2] at hs
        rcases hcp : chronoParse (jsTrim text) ref with _ | d
        · rw [hcp] at hs
          by_cases he : eodTest (jsTrim text).data = true
          · rw [if_pos he] at hs
            exact ⟨ref, (Option.some.injEq _ _ ▸ hs).symm⟩
          · rw [if_neg he] at hs
            exact absurd hs (by simp)
        · rw [hcp] at hs
          exact ⟨d, (Option.some.injEq _ _ ▸ hs).symm⟩
  · intro d₁ d₂ hy hm hd
    unfold toDateString
    rw [hy, hm, hd]

/-- Witness for the amended C4 at a concrete end-of-day input. -/
theorem parseDueDate_no_match_witness :
    parseDueDate oracleNone refJune3 "by EOD" = some "2024-06-03" := by
  rw [(parseDueDate_no_match_spec oracleNone refJune3 "by EOD").1 rfl]
  decide

/-- C9 counterexample: with the external parser finding no match, the
extractor applied to the same input at two different reference instants
yields different dueDate fields, so the output depends on when the call is
made. -/
theorem extract_time_dependence_cex :
    extractActionItems oracleNone refJune3 "- finish by eod" ≠
      extractActionItems oracleNone refJune4 "- finish by eod" := by
  decide

/-- C9 (amended): the extractor is a pure function of the input text, the
call-time reference instant and the external parser's results: parsers
that agree pointwise produce identical outputs, with no hidden state; the
dueDate fields do depend on the reference instant. -/
theorem extract_deterministic
    (p₁ p₂ : String → JsDate → Option JsDate) (ref : JsDate) (text : String)
    (h : ∀ s d, p₁ s d = p₂ s d) :
    extractActionItems p₁ ref text = extractActionItems p₂ ref text := by
  have hp : p₁ = p₂ := funext fun s => funext fun d => h s d
  rw [hp]

/-- Witness for the amended C9 at a concrete input. -/
theorem extract_deterministic_witness :
    extractActionItems oracleNone refJune3 "- send agenda" =
      extractActionItems (fun _ _ => (none : Option JsDate)) refJune3
        "- send agenda" :=
  extract_deterministic oracleNone (fun _ _ => none) refJune3 "- send agenda"
    (fun _ _ => rfl)

/-! Router lemmas. -/

theorem matchSection_sound {nc : Chars} {ws : List Chars}
    {ss : List TodoistSection} {sid : String}
    (h : matchSection nc ws ss = some sid) : ∃ s ∈ ss, sid = s.id := by
  induction ss with
  | nil => simp [matchSection] at h
  | cons s rest ih =>
    unfold matchSection at h
    by_cases h1 : containsL nc (lowerL s.name.data) = true
    · rw [if_pos h1] at h
      injection h with h'
      exact ⟨s, by simp, h'.symm⟩
    · rw [if_neg h1] at h
      by_cases h2 : ws.any (fun w =>
          decide (w.length ≥ 2) && containsL (lowerL s.name.data) w) = true
      · rw [if_pos h2] at h
        injection h with h'
        exact ⟨s, by simp, h'.symm⟩
      · rw [if_neg h2] at h
        obtain ⟨s', hmem, hid⟩ := ih h
        exact ⟨s', by simp [hmem], hid⟩

/-- The routing-consistency invariant: either the empty candidate, or a
candidate naming a supplied project and possibly one of its sections. -/
def BestInv (projects : List ProjectWithSections) (b : BestCandidate) :
    Prop :=
  (b.projectId = "" ∧ b.sectionId = none) ∨
    ∃ p ∈ projects, b.projectId = p.id ∧
      (b.sectionId = none ∨ ∃ s ∈ p.sections, b.sectionId = some s.id)

theorem bestInv_of_section {projects : List ProjectWithSections}
    {p : ProjectWithSections} (hp : p ∈ projects) (nc : Chars)
    (ws : List Chars) (score : Nat) :
    BestInv projects ⟨p.id, matchSection nc ws p.sections, score⟩ := by
  refine Or.inr ⟨p, hp, rfl, ?_⟩
  rcases hm : matchSection nc ws p.sections with _ | sid
  · exact Or.inl rfl
  · obtain ⟨s, hmem, hid⟩ := matchSection_sound hm
    exact Or.inr ⟨s, hmem, by rw [hid]⟩

theorem keywordStep_inv {projects : List ProjectWithSections}
    {b : BestCandidate} (hb : BestInv projects b)
    {p : ProjectWithSections} (hp : p ∈ projects) (nc : Chars)
    (ws : List Chars) : BestInv projects (keywordStep nc ws b p) := by
  unfold keywordStep
  split <;> try split
  all_goals (first
    | exact bestInv_of_section hp nc ws _
    | exact hb)

theorem keywordFold_inv (nc : Chars) (ws : List Chars)
    (projects : List ProjectWithSections) :
    ∀ (l : List ProjectWithSections), (∀ p ∈ l, p ∈ projects) →
      ∀ b, BestInv projects b →
        BestInv projects (l.foldl (keywordStep nc ws) b) := by
  intro l
  induction l with
  | nil => intro _ b hb; exact hb
  | cons p rest ih =>
    intro hsub b hb
    rw [List.foldl_cons]
    exact ih (fun q hq => hsub q (by simp [hq]))
      (keywordStep nc ws b p) (keywordStep_inv hb (hsub p (by simp)) nc ws)

theorem keywordBest_inv (nc : Chars) (ws : List Chars)
    (projects : List ProjectWithSections) :
    BestInv projects (keywordBest nc ws projects) :=
  keywordFold_inv nc ws projects projects (fun _ hq => hq) _ (Or.inl ⟨rfl, rfl⟩)

theorem patternStep_inv {projects : List ProjectWithSections}
    {b : BestCandidate} (hb : BestInv projects b) (nc : Chars)
    (ws : List Chars) (rule : List String × String) :
    BestInv projects (patternStep nc ws projects b rule) := by
  unfold patternStep
  split
  · rcases hf : projects.find?
        (fun p => containsL (lowerL p.name.data) rule.2.data) with _ | p
    · rw [hf]
      exact hb
    · rw [hf]
      have hp : p ∈ projects := List.mem_of_find?_eq_some hf
      simp only [patternApply]
      split <;> try split
      all_goals (first
        | exact bestInv_of_section hp nc ws _
        | exact hb)
  · exact hb

theorem patternFold_inv (nc : Chars) (ws : List Chars)
    (projects : List ProjectWithSections) :
    ∀ (rules : List (List String × String)) (b : BestCandidate),
      BestInv projects b →
        BestInv projects (rules.foldl (patternStep nc ws projects) b) := by
  intro rules
  induction rules with
  | nil => intro b hb; exact hb
  | cons r rest ih =>
    intro b hb
    rw [List.foldl_cons]
    exact ih (patternStep nc ws projects b r) (patternStep_inv hb nc ws r)

theorem patternBest_inv (nc : Chars) (ws : List Chars)
    (projects : List ProjectWithSections) (b : BestCandidate)
    (hb : BestInv projects b) :
    BestInv projects (patternBest nc ws projects b) :=
  patternFold_inv nc ws projects patternRules b hb

theorem hintStage_sound {nc : Chars} {ws : List Chars}
    {projects : List ProjectWithSections} {hint : Option String}
    {r : RouteResult} (h : hintStage nc ws projects hint = some r) :
    ∃ p ∈ projects, r = ⟨p.id, matchSection nc ws p.sections⟩ := by
  cases hint with
  | none => exact absurd h (by simp [hintStage])
  | some hs =>
    simp only [hintStage] at h
    by_cases hb : jsTrimL hs.data = []
    · rw [if_pos hb] at h
      exact absurd h (by simp)
    · rw [if_neg hb] at h
      rcases hf : projects.find? (hintPred (lowerL (jsTrimL hs.data))) with
        _ | p
      · rw [hf] at h
        exact absurd h (by simp)
      · rw [hf] at h
        injection h with h'
        exact ⟨p, List.mem_of_find?_eq_some hf, h'.symm⟩

theorem inboxFallback_consistent (projects : List ProjectWithSections) :
    (inboxFallback projects).sectionId = none ∧
      ((inboxFallback projects).projectId = "" ∨
        ∃ p ∈ projects, (inboxFallback projects).projectId = p.id) := by
  unfold inboxFallback
  rcases hf : projects.find? inboxPred with _ | p
  · cases projects with
    | nil => exact ⟨rfl, Or.inl rfl⟩
    | cons q rest => exact ⟨rfl, Or.inr ⟨q, by simp, rfl⟩⟩
  · exact ⟨rfl, Or.inr ⟨p, List.mem_of_find?_eq_some hf, rfl⟩⟩

theorem afterHint_consistent (nc : Chars) (ws : List Chars)
    (projects : List ProjectWithSections) :
    ((afterHint nc ws projects).projectId = "" ∨
      ∃ p ∈ projects, (afterHint nc ws projects).projectId = p.id) ∧
      ((afterHint nc ws projects).sectionId = none ∨
        ∃ p ∈ projects, (afterHint nc ws projects).projectId = p.id ∧
          ∃ s ∈ p.sections, (afterHint nc ws projects).sectionId =
            some s.id) := by
  unfold afterHint
  by_cases hne :
      (patternBest nc ws projects (keywordBest nc ws projects)).projectId ≠ ""
  · rw [if_pos hne]
    have hinv := patternBest_inv nc ws projects _
      (keywordBest_inv nc ws projects)
    rcases hinv with ⟨hid, _⟩ | ⟨p, hp, hid, hsec⟩
    · exact absurd hid hne
    · refine ⟨Or.inr ⟨p, hp, hid⟩, ?_⟩
      rcases hsec with hnone | ⟨s, hs, hsid⟩
      · exact Or.inl hnone
      · exact Or.inr ⟨p, hp, hid, s, hs, hsid⟩
  · rw [if_neg hne]
    obtain ⟨h1, h2⟩ := inboxFallback_consistent projects
    exact ⟨h2, Or.inl h1⟩

/-- C10: the routing result is consistent with the supplied buckets: a
non-empty returned project identifier is the id of some supplied project,
and a non-null returned section identifier is the id of a section of a
supplied project whose id is the returned project identifier. -/
theorem routeTask_consistent (content : String)
    (projects : List ProjectWithSections) (hint : Option String) :
    ((routeTask content projects hint).projectId = "" ∨
      ∃ p ∈ projects, (routeTask content projects hint).projectId = p.id) ∧
      ((routeTask content projects hint).sectionId = none ∨
        ∃ p ∈ projects, (routeTask content projects hint).projectId = p.id ∧
          ∃ s ∈ p.sections,
            (routeTask content projects hint).sectionId = some s.id) := by
  unfold routeTask
  rcases hh : hintStage (normContent content)
      (contentWords (normContent content)) projects hint with _ | r
  · exact afterHint_consistent _ _ projects
  · obtain ⟨p, hp, hr⟩ := hintStage_sound hh
    subst hr
    refine ⟨Or.inr ⟨p, hp, rfl⟩, ?_⟩
    rcases hm : matchSection (normContent content)
        (contentWords (normContent content)) p.sections with _ | sid
    · exact Or.inl rfl
    · obtain ⟨s, hsmem, hsid⟩ := matchSection_sound hm
      exact Or.inr ⟨p, hp, rfl, s, hsmem, by rw [hsid]⟩

/-- C5: with a non-blank hint that matches some bucket by bidirectional
case-insensitive substring containment, routeTask returns the first such
bucket in list order together with the sub-bucket resolved from the
content, regardless of the later stages; the Engineering example resolves
to the Code Review section. -/
theorem routeTask_hint_first :
    (∀ (content h : String) (projects : List ProjectWithSections)
        (p : ProjectWithSections),
        jsTrimL h.data ≠ [] →
        projects.find? (hintPred (lowerL (jsTrimL h.data))) = some p →
        routeTask content projects (some h) =
          ⟨p.id, matchSection (normContent content)
            (contentWords (normContent content)) p.sections⟩) ∧
      routeTask "Review PR #42"
        [⟨"p-eng", "Engineering", [⟨"s-cr", "Code Review"⟩]⟩,
         ⟨"p-fin", "Finance", []⟩] (some "Engineering") =
        ⟨"p-eng", some "s-cr"⟩ := by
  constructor
  · intro content h projects p hnb hf
    unfold routeTask
    have hh : hintStage (normContent content)
        (contentWords (normContent content)) projects (some h) =
        some ⟨p.id, matchSection (normContent content)
          (contentWords (normContent content)) p.sections⟩ := by
      simp only [hintStage]
      rw [if_neg hnb, hf]
    rw [hh]
  · decide

/-- Witness for C5 at a further concrete hint. -/
theorem routeTask_hint_witness :
    routeTask "pay rent" [⟨"p-fin", "Finance", []⟩] (some "Fin") =
      ⟨"p-fin", none⟩ := by
  rw [routeTask_hint_first.1 "pay rent" "Fin" [⟨"p-fin", "Finance", []⟩]
    ⟨"p-fin", "Finance", []⟩ (by decide) (by decide)]
  decide

/-- C6: in the domain-pattern stage, a rule whose keywords miss the content
leaves the candidate unchanged; a rule whose keywords hit assigns 2 plus 1
for a resolved sub-bucket to the first project whose name contains the
rule's target substring, replacing the candidate only when strictly
higher; and the invoice example selects Finance over Inbox through this
stage. -/
theorem routeTask_pattern_stage :
    (∀ (nc : Chars) (ws : List Chars) (projects : List ProjectWithSections)
        (b : BestCandidate) (kws : List String) (tgt : String),
        (kws.any (fun k => containsL nc k.data) = false →
          patternStep nc ws projects b (kws, tgt) = b) ∧
          (kws.any (fun k => containsL nc k.data) = true →
            projects.find?
              (fun p => containsL (lowerL p.name.data) tgt.data) = none →
            patternStep nc ws projects b (kws, tgt) = b) ∧
          (∀ p, kws.any (fun k => containsL nc k.data) = true →
            projects.find?
              (fun p => containsL (lowerL p.name.data) tgt.data) = some p →
            patternStep nc ws projects b (kws, tgt) =
              if 2 + (if (matchSection nc ws p.sections).isSome then 1
                  else 0) > b.score
              then ⟨p.id, matchSection nc ws p.sections,
                    2 + (if (matchSection nc ws p.sections).isSome then 1
                      else 0)⟩
              else b)) ∧
      routeTask "pay the invoice"
        [⟨"p-fin", "Finance", []⟩, ⟨"p-inbox", "Inbox", []⟩] none =
        ⟨"p-fin", none⟩ := by
  constructor
  · intro nc ws projects b kws tgt
    refine ⟨?_, ?_, ?_⟩
    · intro hk
      unfold patternStep
      rw [if_neg (by simp [hk])]
    · intro hk hf
      unfold patternStep
      rw [if_pos (by simp [hk]), hf]
      rfl
    · intro p hk hf
      unfold patternStep
      rw [if_pos (by simp [hk]), hf]
      rfl
  · decide

/-- Witness for C6 applying the hit case of the pattern stage. -/
theorem routeTask_pattern_witness :
    patternStep (lowerL "pay the invoice".data) []
      [⟨"p-fin", "Finance", []⟩] ⟨"", none, 0⟩
      (["invoice", "payment", "budget", "finance", "expense"], "finan") =
      ⟨"p-fin", none, 2⟩ := by
  rw [(routeTask_pattern_stage.1 (lowerL "pay the invoice".data) []
      [⟨"p-fin", "Finance", []⟩] ⟨"", none, 0⟩
      ["invoice", "payment", "budget", "finance", "expense"] "finan").2.2
      ⟨"p-fin", "Finance", []⟩ (by decide) (by decide)]
  decide

theorem hintStage_nil (nc : Chars) (ws : List Chars)
    (hint : Option String) : hintStage nc ws [] hint = none := by
  cases hint with
  | none => rfl
  | some h =>
    simp only [hintStage]
    split
    · rfl
    · rfl

theorem patternStep_nil (nc : Chars) (ws : List Chars) (b : BestCandidate)
    (r : List String × String) : patternStep nc ws [] b r = b := by
  unfold patternStep
  split
  · rfl
  · rfl

theorem patternBest_nil (nc : Chars) (ws : List Chars) (b : BestCandidate) :
    patternBest nc ws [] b = b := by
  unfold patternBest patternRules
  simp [List.foldl_cons, List.foldl_nil, patternStep_nil]

theorem afterHint_nil (nc : Chars) (ws : List Chars) :
    afterHint nc ws [] = ⟨"", none⟩ := by
  unfold afterHint
  rw [show keywordBest nc ws [] = ⟨"", none, 0⟩ from rfl, patternBest_nil]
  rw [if_neg (by simp)]
  rfl

/-- C7: without any stage selecting a bucket, routeTask falls back to the
first inbox-named project with an absent section, else the first supplied
project, and on an empty project list it returns the empty identifier with
an absent section, raising nothing. -/
theorem routeTask_fallback :
    (∀ (content : String) (hint : Option String),
        routeTask content [] hint = ⟨"", none⟩) ∧
      (∀ (content : String) (hint : Option String)
          (projects : List ProjectWithSections),
        hintStage (normContent content) (contentWords (normContent content))
            projects hint = none →
        (patternBest (normContent content)
            (contentWords (normContent content)) projects
            (keywordBest (normContent content)
              (contentWords (normContent content)) projects)).projectId =
          "" →
        routeTask content projects hint = inboxFallback projects) ∧
      (∀ (projects : List ProjectWithSections) (p : ProjectWithSections),
        projects.find? inboxPred = some p →
        inboxFallback projects = ⟨p.id, none⟩) ∧
      (∀ (p : ProjectWithSections) (rest : List ProjectWithSections),
        (p :: rest).find? inboxPred = none →
        inboxFallback (p :: rest) = ⟨p.id, none⟩) := by
  refine ⟨?_, ?_, ?_, ?_⟩
  · intro content hint
    unfold routeTask
    rw [hintStage_nil]
    exact afterHint_nil _ _
  · intro content hint projects h1 h2
    unfold routeTask
    rw [h1]
    show afterHint (normContent content) (contentWords (normContent content))
      projects = inboxFallback projects
    unfold afterHint
    rw [if_neg (by simp [h2])]
  · intro projects p hf
    unfold inboxFallback
    rw [hf]
  · intro p rest hf
    unfold inboxFallback
    rw [hf]

/-- Witness for C7 at a concrete unmatched input. -/
theorem routeTask_fallback_witness :
    routeTask "zzz" [⟨"p1", "Stuff", []⟩] none = ⟨"p1", none⟩ := by
  rw [routeTask_fallback.2.1 "zzz" none [⟨"p1", "Stuff", []⟩] (by decide)
    (by decide)]
  decide
